import Mathlib

/-!
# Verification of the libsigrok hexadecimal output module (src/output/hex.c)

Shallow embedding of the `hex` output formatter: the `init` and `receive`
functions of `src/output/hex.c`, together with the data they operate on
(`struct context`, `struct sr_channel`, the datafeed packets).

Strings (GLib `GString`, C strings) are modelled as `List Nat` of byte
values; machine integers are modelled as `Nat`/`Int` with explicit
`% 2 ^ w` where overflow matters (the `uint8_t` bit accumulators, the
`uint64_t` loop bound).
-/

set_option linter.unusedVariables false

namespace Hex

/-- Byte values of a string literal (ASCII helper for concrete examples). -/
def ascii (s : String) : List Nat := s.data.map Char.toNat

/-- Digit recursion for `decAscii`, by fuel (structural, so that concrete
values reduce); `n + 1` fuel always suffices since `n / 10 < n`. -/
def decAsciiCore : Nat → Nat → List Nat
  | 0, _ => []
  | fuel + 1, n =>
      if n < 10 then [48 + n] else decAsciiCore fuel (n / 10) ++ [48 + n % 10]

/-- Decimal digits of `n` in ASCII, as produced by `printf "%d"` for a
nonnegative value. -/
def decAscii (n : Nat) : List Nat := decAsciiCore (n + 1) n

/-- One lowercase hexadecimal digit in ASCII. -/
def hexDigitAscii (d : Nat) : Nat := if d < 10 then 48 + d else 87 + d

/-- Digit recursion for `hexAscii`, by fuel (structural, so that concrete
values reduce); `n + 1` fuel always suffices since `n / 16 < n`. -/
def hexAsciiCore : Nat → Nat → List Nat
  | 0, _ => []
  | fuel + 1, n =>
      if n < 16 then [hexDigitAscii n]
      else hexAsciiCore fuel (n / 16) ++ [hexDigitAscii (n % 16)]

/-- Lowercase hexadecimal digits of `n` in ASCII (no padding). -/
def hexAscii (n : Nat) : List Nat := hexAsciiCore (n + 1) n

/-- `printf "%.2x"`: lowercase hex, left-padded with `'0'` to at least two
digits (values `≥ 0x100` print more than two digits). -/
def hexBytes (n : Nat) : List Nat :=
  if n < 16 then [48, hexDigitAscii n] else hexAscii n

/-- `SR_CHANNEL_LOGIC` channel type tag (the value is immaterial, only
equality with it is tested). -/
def SR_CHANNEL_LOGIC : Nat := 10000

/-- `struct sr_channel`: the fields read by this module. -/
structure Channel where
  index : Nat
  typ : Nat
  enabled : Bool
  name : List Nat
deriving Repr, DecidableEq

/-- The slice of `struct sr_dev_inst` this module reads: the channel list
and the result of the `SR_CONF_SAMPLERATE` config query (`none` models the
query failing). -/
structure Device where
  channels : List Channel
  samplerate : Option Nat
deriving Repr, DecidableEq

/-- Per-channel state: one cell of the parallel arrays `channel_index`,
`channel_names`, `sample_buf` and `lines` of `struct context`, bundled as a
record.  `line` is the byte content of the channel's `GString` line buffer.
`emitted` is an observation field with no counterpart in the C struct: it
records, in order, every byte value this channel has rendered with
`"%.2x "` (into `line`), so that byte-level properties of the hex output
can be stated; it influences nothing. -/
structure ChanState where
  index : Nat
  name : List Nat
  sample_buf : Nat
  line : List Nat
  emitted : List Nat
deriving Repr, DecidableEq

/-- `struct context` (the `bit_cnt` field is declared but never used by the
C code and is omitted).  `trigger = -1` means no pending trigger. -/
structure Ctx where
  samples_per_line : Nat
  spl_cnt : Nat
  trigger : Int
  chans : List ChanState
  header : Option (List Nat)
deriving Repr, DecidableEq

/-- `struct sr_output`: device instance, module parameter, module state. -/
structure Output where
  sdi : Option Device
  param : Option (List Nat)
  internal : Option Ctx
deriving Repr, DecidableEq

/-- Return codes used by this module (plus `SR_ERR_DATA`, the code the
specification's DataError denotes; the module itself never returns it). -/
inductive SrStatus where
  | SR_OK
  | SR_ERR_ARG
  | SR_ERR_DATA
deriving Repr, DecidableEq

export SrStatus (SR_OK SR_ERR_ARG SR_ERR_DATA)

/-- `DEFAULT_SAMPLES_PER_LINE`. -/
def DEFAULT_SAMPLES_PER_LINE : Nat := 192

/-- `PACKAGE_STRING`: build-time banner constant; its exact value is
immaterial to every claim. -/
def PACKAGE_STRING : List Nat := ascii "libsigrok 0.3.0"

/-- `ULONG_MAX` for a 64-bit `unsigned long`: `strtoul` clamps its result
here when the digit string overflows the type. -/
def ULONG_MAX : Nat := 2 ^ 64 - 1

/-- Exact value of the longest leading run of decimal digits, `0` if
there is none. -/
def strtoul10Aux : List Nat → Nat → Nat
  | [], acc => acc
  | c :: cs, acc =>
      if 48 ≤ c ∧ c ≤ 57 then strtoul10Aux cs (acc * 10 + (c - 48)) else acc

/-- `strtoul(s, NULL, 10)` on the digit-prefix fragment relevant here:
the exact digit value, clamped to `ULONG_MAX` on overflow as `strtoul`
mandates.  (C `strtoul`'s leading-whitespace/sign handling is not
exercised by any claim and is not modelled.) -/
def strtoul10 (s : List Nat) : Nat := min (strtoul10Aux s 0) ULONG_MAX

/-- The `unsigned long` → `int` conversion in
`(spl = strtoul(o->param, NULL, 10))` with `int spl`: reduction modulo
`2^32` read as a two's-complement 32-bit value (the conversion is
implementation-defined in C for out-of-range values; this is the
behaviour of the compilers the project targets). -/
def intOfULong (v : Nat) : Int :=
  if v % 2 ^ 32 < 2 ^ 31 then ((v % 2 ^ 32 : Nat) : Int)
  else ((v % 2 ^ 32 : Nat) : Int) - 2 ^ 32

/-- Modelled from the spec: `sr_samplerate_string` (defined outside the
given sources) renders a sample rate as a human-readable string; no claim
depends on its exact output. -/
def sr_samplerate_string (rate : Nat) : List Nat := decAscii rate ++ ascii " Hz"

/-- The zeroed context produced by `g_malloc0` followed by
`ctx->trigger = -1` — the state `init` leaves behind when it fails on an
invalid parameter. -/
def initCtx0 : Ctx :=
  { samples_per_line := 0, spl_cnt := 0, trigger := -1, chans := [], header := none }

/-- Channel-selection predicate of `init`'s two scan loops:
logic type and enabled. -/
def selected (ch : Channel) : Bool :=
  ch.typ == SR_CHANNEL_LOGIC && ch.enabled

/-- Per-channel initialisation in `init`'s second scan loop: record the
index and name, zero the bit accumulator, seed the line with `"<name>:"`. -/
def mkChan (ch : Channel) : ChanState :=
  { index := ch.index, name := ch.name, sample_buf := 0,
    line := ch.name ++ [58], emitted := [] }

/-- The header block composed at the end of `init`: the banner line, then —
only when the samplerate query succeeds — the
`Acquisition with <M>/<T> channels at <rate>` line. -/
def headerOf (sdi : Device) (numEnabled : Nat) : List Nat :=
  PACKAGE_STRING ++ [10] ++
    (match sdi.samplerate with
     | some rate =>
         ascii "Acquisition with " ++ decAscii numEnabled ++ [47] ++
           decAscii sdi.channels.length ++ ascii " channels at " ++
           sr_samplerate_string rate ++ [10]
     | none => [])

/-- The fully initialised context `init` builds once the parameter check
has passed. -/
def mkCtx (sdi : Device) (spl : Nat) : Ctx :=
  let sel := sdi.channels.filter selected
  { samples_per_line := spl, spl_cnt := 0, trigger := -1,
    chans := sel.map mkChan,
    header := some (headerOf sdi sel.length) }

/-- `init`: argument checks, `o->internal = g_malloc0(...)` (note: this
happens before the parameter check, so a failed parameter check leaves the
zeroed context attached), parameter parsing, channel selection, header
composition. -/
def init (o : Option Output) : SrStatus × Option Output :=
  match o with
  | none => (SR_ERR_ARG, none)
  | some o =>
    match o.sdi with
    | none => (SR_ERR_ARG, some o)
    | some sdi =>
      let o := { o with internal := some initCtx0 }
      match o.param with
      | some p =>
          if p ≠ [] then
            let spl := intOfULong (strtoul10 p)
            if spl < 1 then (SR_ERR_ARG, some o)
            else (SR_OK, some { o with internal := some (mkCtx sdi spl.toNat) })
          else (SR_OK, some { o with internal := some (mkCtx sdi DEFAULT_SAMPLES_PER_LINE) })
      | none => (SR_OK, some { o with internal := some (mkCtx sdi DEFAULT_SAMPLES_PER_LINE) })

/-- The datafeed packets `receive` dispatches on. `SR_DF_LOGIC` carries the
`sr_datafeed_logic` payload: the claimed buffer length, the per-sample unit
size, and the buffer bytes. -/
inductive Packet where
  | SR_DF_TRIGGER
  | SR_DF_LOGIC (length unitsize : Nat) (data : List Nat)
  | SR_DF_END
deriving Repr, DecidableEq

/-- Test of bit `idx % 8` in byte `idx / 8` of the current sample:
`*p & (1 << (idx % 8))` with `p = logic->data + i + idx / 8`.  Here
`sample` is the buffer suffix starting at the sample's offset `i`; a read
past the end of the buffer (undefined behaviour in C) is modelled as
reading a `0` byte. -/
def sampleBit (sample : List Nat) (idx : Nat) : Bool :=
  (sample.getD (idx / 8) 0) &&& (1 <<< (idx % 8)) != 0

/-- The caret marker line `"T:%*s^ %d\n"` rendered with field width
`t + t / 8` (so that many spaces) and value `t`. -/
def triggerLine (t : Nat) : List Nat :=
  [84, 58] ++ List.replicate (t + t / 8) 32 ++ [94, 32] ++ decAscii t ++ [10]

/-- `ctx->sample_buf[j] <<= 1; if (*p & (1 << (idx % 8))) |= 1`: the bit
accumulator of one channel after shifting in the current sample's bit.
The accumulator is a `uint8_t`, hence the `% 256`. -/
def bufAfter (sample : List Nat) (c : ChanState) : Nat :=
  let b := (c.sample_buf <<< 1) % 256
  if sampleBit sample c.index then b ||| 1 else b

/-- `ctx->spl_cnt && pos == 0`: whether the channel loop renders a hex
byte this sample (`spl_cnt` is the already-incremented counter, `pos` its
low three bits). -/
def emitsByte (cnt : Nat) : Prop := cnt ≠ 0 ∧ cnt % 8 = 0

instance (cnt : Nat) : Decidable (emitsByte cnt) := by
  unfold emitsByte; infer_instance

/-- A channel's line buffer after the possible `"%.2x "` render of the
completed byte. -/
def lineAfterHex (cnt : Nat) (sample : List Nat) (c : ChanState) : List Nat :=
  if emitsByte cnt then c.line ++ hexBytes (bufAfter sample c) ++ [32] else c.line

/-- The effect of one iteration of the per-channel loop on its own
channel: new accumulator (zeroed after a byte render), recorded rendered
byte, and line buffer (re-seeded with `"<name>:"` after a line flush). -/
def chanStep (cnt spl : Nat) (sample : List Nat) (c : ChanState) : ChanState :=
  { c with
    sample_buf := if emitsByte cnt then 0 else bufAfter sample c,
    emitted := if emitsByte cnt then c.emitted ++ [bufAfter sample c] else c.emitted,
    line := if cnt = spl then c.name ++ [58] else lineAfterHex cnt sample c }

/-- Body of the per-channel loop (`for (j = 0; ...)`) inside the
`SR_DF_LOGIC` sample loop, for one sample: update the channel
(`chanStep`), and when the counter has reached `samples_per_line` flush
this channel's line to the chunk — appending the caret marker line after
the last channel's line when a trigger is pending.  The recursion carries
`trigger` and `out` through the loop; `rest = []` identifies the last
channel (`j == num_enabled_channels - 1`). -/
def chanLoop (spl_cnt spl : Nat) (sample : List Nat) :
    List ChanState → Int → List Nat → List ChanState × Int × List Nat
  | [], trigger, out => ([], trigger, out)
  | c :: rest, trigger, out =>
      if spl_cnt = spl then
        let out1 := out ++ lineAfterHex spl_cnt sample c ++ [10]
        let isLast : Bool := rest.isEmpty
        let out2 := if isLast = true ∧ trigger > -1 then out1 ++ triggerLine trigger.toNat else out1
        let trigger2 : Int := if isLast = true ∧ trigger > -1 then -1 else trigger
        let r := chanLoop spl_cnt spl sample rest trigger2 out2
        (chanStep spl_cnt spl sample c :: r.1, r.2.1, r.2.2)
      else
        let r := chanLoop spl_cnt spl sample rest trigger out
        (chanStep spl_cnt spl sample c :: r.1, r.2.1, r.2.2)

/-- One iteration of the `SR_DF_LOGIC` sample loop: increment `spl_cnt`,
run the channel loop, and reset `spl_cnt` to zero after a line flush. -/
def processSample (ctx : Ctx) (sample : List Nat) (out : List Nat) :
    Ctx × List Nat :=
  let cnt := ctx.spl_cnt + 1
  let r := chanLoop cnt ctx.samples_per_line sample ctx.chans ctx.trigger out
  let cnt' := if cnt = ctx.samples_per_line then 0 else cnt
  ({ ctx with spl_cnt := cnt', trigger := r.2.1, chans := r.1 }, r.2.2)

/-- The `SR_DF_LOGIC` sample loop, by remaining iteration count: sample
`k`'s bytes start at offset `k * unitsize`, modelled by dropping
`unitsize` bytes per iteration. -/
def logicLoop (u : Nat) : List Nat → Nat → Ctx → List Nat → Ctx × List Nat
  | _, 0, ctx, out => (ctx, out)
  | data, n + 1, ctx, out =>
      let r := processSample ctx data out
      logicLoop u (data.drop u) n r.1 r.2

/-- Number of iterations of
`for (i = 0; i <= logic->length - logic->unitsize; i += logic->unitsize)`
in `uint64_t` arithmetic: the bound `length - unitsize` wraps around when
`unitsize > length`, making the loop read far outside the buffer
(undefined behaviour; modelled as the first-pass iteration count, with the
out-of-range byte reads yielding `0`); a zero `unitsize` makes the C loop
diverge (modelled as zero iterations; no theorem relies on either case). -/
def numSamples (length unitsize : Nat) : Nat :=
  if unitsize = 0 then 0
  else (if unitsize ≤ length then length - unitsize
        else 2 ^ 64 - (unitsize - length)) / unitsize + 1

/-- `ctx->sample_buf[i] << (8 - (ctx->spl_cnt & 7))`: the value rendered
for a channel's partial final byte at end of stream.  The shift is
performed after integer promotion to `int`, so the result is *not*
truncated to eight bits. -/
def endVal (cnt : Nat) (c : ChanState) : Nat := c.sample_buf <<< (8 - cnt % 8)

/-- A channel's line at end of stream, after the partial-byte render
(applied only when `spl_cnt & 7` is nonzero). -/
def endLine (cnt : Nat) (c : ChanState) : List Nat :=
  if cnt % 8 ≠ 0 then c.line ++ hexBytes (endVal cnt c) ++ [32] else c.line

/-- The `SR_DF_END` flush loop: for each channel, left-align and render the
partial bit accumulator when `spl_cnt & 7` is nonzero, then append the
channel's line plus terminator to the chunk. -/
def endFlush (spl_cnt : Nat) :
    List ChanState → List Nat → List ChanState × List Nat
  | [], out => ([], out)
  | c :: rest, out =>
      let line := endLine spl_cnt c
      let emitted :=
        if spl_cnt % 8 ≠ 0 then c.emitted ++ [endVal spl_cnt c] else c.emitted
      let r := endFlush spl_cnt rest (out ++ line ++ [10])
      ({ c with line := line, emitted := emitted } :: r.1, r.2)

/-- `*out = ctx->header` when the header is still buffered (first data
packet), else a fresh empty string. -/
def headerTake : Option (List Nat) → List Nat
  | some h => h
  | none => []

/-- `receive`: argument checks, then dispatch on the packet type.
`SR_DF_TRIGGER` records the current in-line sample count; `SR_DF_LOGIC`
seeds the chunk with the header (first packet) or a fresh string and runs
the sample loop; `SR_DF_END` flushes any buffered partial line.  Returns
the status, the chunk `*out` (`none` models a NULL `*out`), and the
updated output handle. -/
def receive (o : Option Output) (packet : Packet) :
    SrStatus × Option (List Nat) × Option Output :=
  match o with
  | none => (SR_ERR_ARG, none, none)
  | some o =>
    match o.sdi with
    | none => (SR_ERR_ARG, none, some o)
    | some _ =>
      match o.internal with
      | none => (SR_ERR_ARG, none, some o)
      | some ctx =>
        match packet with
        | .SR_DF_TRIGGER =>
            (SR_OK, none,
             some { o with internal := some { ctx with trigger := Int.ofNat ctx.spl_cnt } })
        | .SR_DF_LOGIC length unitsize data =>
            let out0 := headerTake ctx.header
            let ctx1 := { ctx with header := none }
            let r := logicLoop unitsize data (numSamples length unitsize) ctx1 out0
            (SR_OK, some r.2, some { o with internal := some r.1 })
        | .SR_DF_END =>
            if ctx.spl_cnt ≠ 0 then
              let r := endFlush ctx.spl_cnt ctx.chans []
              (SR_OK, some r.2, some { o with internal := some { ctx with chans := r.1 } })
            else (SR_OK, none, some o)

/-- Feed a packet sequence through `receive`, keeping the final handle
(the chunks are read off individual `receive` calls where needed). -/
def runReceive : Option Output → List Packet → Option Output
  | o, [] => o
  | o, p :: ps => runReceive (receive o p).2.2 ps

/-- The module state carried by an output handle. -/
def theInternal : Option Output → Option Ctx
  | some o => o.internal
  | none => none

/-! ## Characterisation of the per-channel loop -/

/-- What one sample appends to the output chunk: nothing unless the line is
full, else every channel's line plus terminator, plus the caret marker line
when a trigger is pending and there is a last channel to follow. -/
def flushAppend (cnt spl : Nat) (sample : List Nat) (cs : List ChanState)
    (trig : Int) : List Nat :=
  if cnt = spl then
    (cs.map (fun c => lineAfterHex cnt sample c ++ [10])).flatten ++
      (if cs ≠ [] ∧ trig > -1 then triggerLine trig.toNat else [])
  else []

theorem chanLoop_chans (cnt spl : Nat) (sample : List Nat) :
    ∀ (cs : List ChanState) (trig : Int) (out : List Nat),
      (chanLoop cnt spl sample cs trig out).1 = cs.map (chanStep cnt spl sample) := by
  intro cs
  induction cs with
  | nil => intro trig out; rfl
  | cons c rest ih =>
      intro trig out
      by_cases hf : cnt = spl
      · simp only [chanLoop, if_pos hf, ih, List.map]
      · simp only [chanLoop, if_neg hf, ih, List.map]

theorem chanLoop_trigger (cnt spl : Nat) (sample : List Nat) :
    ∀ (cs : List ChanState) (trig : Int) (out : List Nat),
      (chanLoop cnt spl sample cs trig out).2.1 =
        if cnt = spl ∧ cs ≠ [] ∧ trig > -1 then -1 else trig := by
  intro cs
  induction cs with
  | nil => intro trig out; simp [chanLoop]
  | cons c rest ih =>
      intro trig out
      by_cases hf : cnt = spl
      · subst hf
        by_cases hr : rest = []
        · subst hr
          by_cases ht : trig > -1
          · simp [chanLoop, ht, ih]
          · simp [chanLoop, ht, ih]
        · have hre : rest.isEmpty = false := by
            cases rest with
            | nil => exact absurd rfl hr
            | cons _ _ => rfl
          simp [chanLoop, hre, ih, hr]
      · simp [chanLoop, hf, ih]

theorem chanLoop_out (cnt spl : Nat) (sample : List Nat) :
    ∀ (cs : List ChanState) (trig : Int) (out : List Nat),
      (chanLoop cnt spl sample cs trig out).2.2 =
        out ++ flushAppend cnt spl sample cs trig := by
  intro cs
  induction cs with
  | nil => intro trig out; simp [chanLoop, flushAppend]
  | cons c rest ih =>
      intro trig out
      by_cases hf : cnt = spl
      · subst hf
        by_cases hr : rest = []
        · subst hr
          by_cases ht : trig > -1
          · simp [chanLoop, ht, flushAppend, List.append_assoc]
          · simp [chanLoop, ht, flushAppend, List.append_assoc]
        · have hre : rest.isEmpty = false := by
            cases rest with
            | nil => exact absurd rfl hr
            | cons _ _ => rfl
          by_cases ht : trig > -1
          · simp [chanLoop, hre, ih, flushAppend, hr, ht, List.append_assoc]
          · simp [chanLoop, hre, ih, flushAppend, hr, ht, List.append_assoc]
      · simp [chanLoop, hf, ih, flushAppend]

theorem endFlush_chans (cnt : Nat) :
    ∀ (cs : List ChanState) (out : List Nat),
      (endFlush cnt cs out).1 =
        cs.map (fun c =>
          { c with
            line := endLine cnt c,
            emitted := if cnt % 8 ≠ 0 then c.emitted ++ [endVal cnt c] else c.emitted }) := by
  intro cs
  induction cs with
  | nil => intro out; rfl
  | cons c rest ih => intro out; simp only [endFlush, ih, List.map]

theorem endFlush_out (cnt : Nat) :
    ∀ (cs : List ChanState) (out : List Nat),
      (endFlush cnt cs out).2 =
        out ++ (cs.map (fun c => endLine cnt c ++ [10])).flatten := by
  intro cs
  induction cs with
  | nil => intro out; simp [endFlush]
  | cons c rest ih => intro out; simp [endFlush, ih, List.append_assoc]

/-! ## Characterisation of the sample loop -/

theorem processSample_fst (ctx : Ctx) (s out : List Nat) :
    (processSample ctx s out).1 =
      { ctx with
        spl_cnt := if ctx.spl_cnt + 1 = ctx.samples_per_line then 0 else ctx.spl_cnt + 1,
        trigger :=
          if ctx.spl_cnt + 1 = ctx.samples_per_line ∧ ctx.chans ≠ [] ∧ ctx.trigger > -1
          then -1 else ctx.trigger,
        chans := ctx.chans.map (chanStep (ctx.spl_cnt + 1) ctx.samples_per_line s) } := by
  simp [processSample, chanLoop_chans, chanLoop_trigger]

theorem processSample_snd (ctx : Ctx) (s out : List Nat) :
    (processSample ctx s out).2 =
      out ++ flushAppend (ctx.spl_cnt + 1) ctx.samples_per_line s ctx.chans ctx.trigger := by
  simp [processSample, chanLoop_out]

/-- The sample loop viewed over an abstract list of samples (each sample
given as the buffer suffix from its offset on). -/
def runSamples : Ctx → List (List Nat) → List Nat → Ctx × List Nat
  | ctx, [], out => (ctx, out)
  | ctx, s :: ss, out =>
      let r := processSample ctx s out
      runSamples r.1 ss r.2

/-- The suffix views of the first `n` samples of a packet buffer:
sample `k` starts at offset `k * unitsize`. -/
def samplesOf (u : Nat) : List Nat → Nat → List (List Nat)
  | _, 0 => []
  | data, n + 1 => data :: samplesOf u (data.drop u) n

theorem logicLoop_eq_runSamples (u : Nat) :
    ∀ (n : Nat) (data : List Nat) (ctx : Ctx) (out : List Nat),
      logicLoop u data n ctx out = runSamples ctx (samplesOf u data n) out := by
  intro n
  induction n with
  | zero => intro data ctx out; rfl
  | succ n ih => intro data ctx out; simp [logicLoop, samplesOf, runSamples, ih]

theorem runSamples_samples_per_line :
    ∀ (ss : List (List Nat)) (ctx : Ctx) (out : List Nat),
      (runSamples ctx ss out).1.samples_per_line = ctx.samples_per_line := by
  intro ss
  induction ss with
  | nil => intro ctx out; rfl
  | cons s ss ih => intro ctx out; simp [runSamples, ih, processSample_fst]

theorem runSamples_header :
    ∀ (ss : List (List Nat)) (ctx : Ctx) (out : List Nat),
      (runSamples ctx ss out).1.header = ctx.header := by
  intro ss
  induction ss with
  | nil => intro ctx out; rfl
  | cons s ss ih => intro ctx out; simp [runSamples, ih, processSample_fst]

/-- If the in-line counter cannot reach the line width during the whole
run, no line is flushed: the chunk is left untouched and the counter just
advances. -/
theorem runSamples_no_flush :
    ∀ (ss : List (List Nat)) (ctx : Ctx) (out : List Nat),
      ctx.spl_cnt + ss.length < ctx.samples_per_line →
      (runSamples ctx ss out).2 = out ∧
        (runSamples ctx ss out).1.spl_cnt = ctx.spl_cnt + ss.length ∧
        (runSamples ctx ss out).1.trigger = ctx.trigger := by
  intro ss
  induction ss with
  | nil => intro ctx out h; exact ⟨rfl, rfl, rfl⟩
  | cons s ss ih =>
      intro ctx out h
      simp only [List.length_cons] at h
      have hne : ¬(ctx.spl_cnt + 1 = ctx.samples_per_line) := by omega
      have hne2 : ¬(ctx.spl_cnt + 1 = ctx.samples_per_line ∧ ctx.chans ≠ [] ∧
          ctx.trigger > -1) := fun hc => hne hc.1
      have h1 : (processSample ctx s out).1 =
          { ctx with
            spl_cnt := ctx.spl_cnt + 1,
            chans := ctx.chans.map (chanStep (ctx.spl_cnt + 1) ctx.samples_per_line s) } := by
        rw [processSample_fst]
        simp only [if_neg hne, if_neg hne2]
      have h2 : (processSample ctx s out).2 = out := by
        rw [processSample_snd]
        simp [flushAppend, hne]
      have := ih ({ ctx with
          spl_cnt := ctx.spl_cnt + 1,
          chans := ctx.chans.map (chanStep (ctx.spl_cnt + 1) ctx.samples_per_line s) })
        out (by simpa using (by omega : ctx.spl_cnt + 1 + ss.length < ctx.samples_per_line))
      simp only [runSamples]
      rw [h1, h2]
      refine ⟨this.1, ?_, this.2.2⟩
      rw [this.2.1]
      simp only [List.length_cons]
      omega

/-- Counter update of one sample, expressed with modular arithmetic. -/
theorem mod_step {spl n : Nat} (h : 0 < spl) :
    (if n % spl + 1 = spl then 0 else n % spl + 1) = (n + 1) % spl := by
  have hr : n % spl < spl := Nat.mod_lt _ h
  have hadd : (n + 1) % spl = (n % spl + 1) % spl := by
    conv_lhs => rw [Nat.add_mod]
    by_cases h1 : spl = 1
    · subst h1; simp
    · rw [Nat.mod_eq_of_lt (by omega : 1 < spl)]
  by_cases he : n % spl + 1 = spl
  · rw [if_pos he, hadd, he, Nat.mod_self]
  · rw [if_neg he, hadd, Nat.mod_eq_of_lt (by omega : n % spl + 1 < spl)]

/-- The evolution of a single channel across a run of samples, where `n`
counts the samples already processed since a fresh line-aligned start
(so the in-line counter is `n % spl`). -/
def chanRun (spl : Nat) : List (List Nat) → Nat → ChanState → ChanState
  | [], _, c => c
  | s :: ss, n, c => chanRun spl ss (n + 1) (chanStep (n % spl + 1) spl s c)

theorem runSamples_chans (spl : Nat) (hpos : 0 < spl) :
    ∀ (ss : List (List Nat)) (n : Nat) (ctx : Ctx) (out : List Nat),
      ctx.samples_per_line = spl → ctx.spl_cnt = n % spl →
      (runSamples ctx ss out).1.chans = ctx.chans.map (chanRun spl ss n) ∧
        (runSamples ctx ss out).1.spl_cnt = (n + ss.length) % spl := by
  intro ss
  induction ss with
  | nil =>
      intro n ctx out hspl hcnt
      constructor
      · rw [show ctx.chans.map (chanRun spl [] n) = ctx.chans.map id from
          List.map_congr_left (fun c _ => rfl)]
        simp [runSamples]
      · simpa [runSamples] using hcnt
  | cons s ss ih =>
      intro n ctx out hspl hcnt
      have hstep : (processSample ctx s out).1 =
          { ctx with
            spl_cnt := (n + 1) % spl,
            trigger := if ctx.spl_cnt + 1 = ctx.samples_per_line ∧ ctx.chans ≠ [] ∧
                ctx.trigger > -1 then -1 else ctx.trigger,
            chans := ctx.chans.map (chanStep (n % spl + 1) spl s) } := by
        rw [processSample_fst, hspl, hcnt, mod_step hpos]
      have := ih (n + 1) (processSample ctx s out).1 (processSample ctx s out).2
        (by rw [hstep]; exact hspl) (by rw [hstep])
      simp only [runSamples]
      refine ⟨?_, ?_⟩
      · rw [this.1, hstep]
        simp only [List.map_map]
        refine List.map_congr_left (fun c _ => rfl)
      · rw [this.2]
        simp only [List.length_cons]
        congr 1
        omega

/-! ## Bit-level semantics of the byte trace -/

/-- The bit a channel at bit position `idx` contributes for one sample,
as a numeric `0` or `1`. -/
def bitOfSample (sample : List Nat) (idx : Nat) : Nat :=
  if sampleBit sample idx then 1 else 0

/-- The bit sequence a channel at bit position `idx` extracts from a
sample sequence. -/
def chanBits (idx : Nat) (ss : List (List Nat)) : List Nat :=
  ss.map (fun s => bitOfSample s idx)

/-- Value of a bit list read most-significant-bit first. -/
def bitsVal (bs : List Nat) : Nat := bs.foldl (fun a b => 2 * a + b) 0

/-- The bytes formed by the complete 8-bit groups of a bit list,
most-significant bit first (trailing bits short of a full byte yield
nothing). -/
def bitsPacked (bs : List Nat) : List Nat :=
  if h : 8 ≤ bs.length then bitsVal (bs.take 8) :: bitsPacked (bs.drop 8) else []
  termination_by bs.length
  decreasing_by simp only [List.length_drop]; omega

/-- The eight bits of a byte value, most-significant first. -/
def byteBitsMSB (v : Nat) : List Nat :=
  [v / 128 % 2, v / 64 % 2, v / 32 % 2, v / 16 % 2,
   v / 8 % 2, v / 4 % 2, v / 2 % 2, v % 2]

/-- Decoding a byte sequence into its bits, most-significant first within
each byte. -/
def decodeBytes (bs : List Nat) : List Nat := (bs.map byteBitsMSB).flatten

/-- The bits still pending in an accumulator: everything after the last
full 8-bit group. -/
def lastBits (bs : List Nat) : List Nat := bs.drop (bs.length - bs.length % 8)

theorem bitOfSample_le_one (s : List Nat) (idx : Nat) : bitOfSample s idx ≤ 1 := by
  unfold bitOfSample; split <;> omega

theorem bitsVal_append_bit (xs : List Nat) (b : Nat) :
    bitsVal (xs ++ [b]) = 2 * bitsVal xs + b := by
  simp [bitsVal, List.foldl_append]

theorem bitsVal_lt (bs : List Nat) (h : ∀ b ∈ bs, b ≤ 1) :
    bitsVal bs < 2 ^ bs.length := by
  induction bs using List.reverseRecOn with
  | nil => simp [bitsVal]
  | append_singleton xs b ih =>
      have hb : b ≤ 1 := h b (by simp)
      have hxs := ih (fun x hx => h x (by simp [hx]))
      rw [bitsVal_append_bit]
      simp only [List.length_append, List.length_singleton]
      have : 2 ^ (xs.length + 1) = 2 * 2 ^ xs.length := by ring
      omega

theorem two_mul_lor_one (a : Nat) : 2 * a ||| 1 = 2 * a + 1 := by
  have h := Nat.lor_bit false a true 0
  simp [Nat.bit_val] at h
  simpa [Nat.bit_val, Nat.mul_comm] using h

/-- For an accumulator below `2^7`, the C shift/mask/OR sequence is the
plain base-2 push of the extracted bit. -/
theorem bufAfter_eq (s : List Nat) (c : ChanState) (h : c.sample_buf < 128) :
    bufAfter s c = 2 * c.sample_buf + bitOfSample s c.index := by
  have hdef : bufAfter s c =
      if sampleBit s c.index then ((c.sample_buf <<< 1) % 256) ||| 1
      else (c.sample_buf <<< 1) % 256 := rfl
  have hs : (c.sample_buf <<< 1) % 256 = 2 * c.sample_buf := by
    rw [Nat.shiftLeft_eq, pow_one, Nat.mod_eq_of_lt (by omega)]
    ring
  rw [hdef, hs]
  unfold bitOfSample
  split
  · exact two_mul_lor_one c.sample_buf
  · omega

theorem byteBitsMSB_bitsVal (bs : List Nat) (hlen : bs.length = 8)
    (h : ∀ b ∈ bs, b ≤ 1) : byteBitsMSB (bitsVal bs) = bs := by
  rcases bs with _ | ⟨b0, bs⟩
  · simp at hlen
  rcases bs with _ | ⟨b1, bs⟩
  · simp at hlen
  rcases bs with _ | ⟨b2, bs⟩
  · simp at hlen
  rcases bs with _ | ⟨b3, bs⟩
  · simp at hlen
  rcases bs with _ | ⟨b4, bs⟩
  · simp at hlen
  rcases bs with _ | ⟨b5, bs⟩
  · simp at hlen
  rcases bs with _ | ⟨b6, bs⟩
  · simp at hlen
  rcases bs with _ | ⟨b7, bs⟩
  · simp at hlen
  rcases bs with _ | ⟨b8, bs⟩
  · have h0 : b0 ≤ 1 := h b0 (by simp)
    have h1 : b1 ≤ 1 := h b1 (by simp)
    have h2 : b2 ≤ 1 := h b2 (by simp)
    have h3 : b3 ≤ 1 := h b3 (by simp)
    have h4 : b4 ≤ 1 := h b4 (by simp)
    have h5 : b5 ≤ 1 := h b5 (by simp)
    have h6 : b6 ≤ 1 := h b6 (by simp)
    have h7 : b7 ≤ 1 := h b7 (by simp)
    simp only [bitsVal, List.foldl, byteBitsMSB, List.cons.injEq, and_true]
    omega
  · simp [List.length_cons] at hlen

theorem bitsVal_append_zeros (xs : List Nat) (k : Nat) :
    bitsVal (xs ++ List.replicate k 0) = bitsVal xs * 2 ^ k := by
  induction k with
  | zero => simp
  | succ k ih =>
      have : List.replicate (k + 1) 0 = List.replicate k 0 ++ [0] := by
        rw [List.replicate_add]; simp
      rw [this, ← List.append_assoc, bitsVal_append_bit, ih]
      ring

/-- Decoding a left-aligned partial byte recovers the pending bits,
padded with zeros. -/
theorem byteBitsMSB_padded (pend : List Nat) (hlen : pend.length ≤ 8)
    (h : ∀ b ∈ pend, b ≤ 1) :
    byteBitsMSB (bitsVal pend * 2 ^ (8 - pend.length)) =
      pend ++ List.replicate (8 - pend.length) 0 := by
  rw [← bitsVal_append_zeros]
  refine byteBitsMSB_bitsVal _ (by simp; omega) ?_
  intro b hb
  rcases List.mem_append.mp hb with hb | hb
  · exact h b hb
  · rw [List.eq_of_mem_replicate hb]; omega

theorem bitsPacked_short (bs : List Nat) (h : bs.length < 8) :
    bitsPacked bs = [] := by
  rw [bitsPacked]; rw [dif_neg (by omega)]

theorem bitsPacked_group (g rest : List Nat) (hg : g.length = 8) :
    bitsPacked (g ++ rest) = bitsVal g :: bitsPacked rest := by
  rw [bitsPacked]
  rw [dif_pos (by simp [hg])]
  congr 1
  · congr 1
    rw [← hg, List.take_left]
  · congr 1
    rw [← hg, List.drop_left]

theorem decodeBytes_bitsPacked (bs : List Nat) (h : ∀ b ∈ bs, b ≤ 1) :
    decodeBytes (bitsPacked bs) = bs.take (bs.length - bs.length % 8) := by
  induction bs using bitsPacked.induct with
  | case1 bs h8 ih =>
      have htl : (bs.take 8).length = 8 := by simp [List.length_take]; omega
      rw [bitsPacked, dif_pos h8]
      simp only [decodeBytes, List.map_cons, List.flatten_cons]
      have ihr := ih (fun b hb => h b (List.mem_of_mem_drop hb))
      simp only [decodeBytes] at ihr
      rw [ihr, byteBitsMSB_bitsVal _ htl (fun b hb => h b (List.mem_of_mem_take hb))]
      have hdl : (bs.drop 8).length = bs.length - 8 := by simp
      rw [hdl]
      have hmod : (bs.length - 8) % 8 = bs.length % 8 := by omega
      rw [hmod]
      have harith : bs.length - bs.length % 8 = 8 + (bs.length - 8 - bs.length % 8) := by
        omega
      rw [harith, List.take_add]
  | case2 bs h8 =>
      rw [bitsPacked_short bs (by omega)]
      have : bs.length % 8 = bs.length := Nat.mod_eq_of_lt (by omega)
      simp [decodeBytes, this]

theorem lastBits_short (bs : List Nat) (h : bs.length < 8) : lastBits bs = bs := by
  unfold lastBits
  rw [Nat.mod_eq_of_lt h]
  simp

theorem lastBits_append_group (g ys : List Nat) (hg : g.length = 8) :
    lastBits (g ++ ys) = lastBits ys := by
  unfold lastBits
  rw [List.length_append, hg]
  have h1 : 8 + ys.length - (8 + ys.length) % 8 =
      g.length + (ys.length - ys.length % 8) := by
    rw [hg]; omega
  rw [h1, List.drop_append]

/-- The heart of the round-trip argument, for one channel: starting
`n` samples after a fresh line-aligned state whose accumulator holds the
`n % 8` pending bits `pend`, and provided the line width is a multiple of
eight (so byte boundaries inside a line are the global multiples of
eight), the channel's recorded rendered bytes are exactly the packed full
groups of its bit sequence, and its accumulator holds the bits after the
last full group. -/
theorem chanRun_spec (spl : Nat) (h8 : spl % 8 = 0) (hpos : 0 < spl) :
    ∀ (ss : List (List Nat)) (n : Nat) (c : ChanState) (pend : List Nat),
      (∀ b ∈ pend, b ≤ 1) → pend.length = n % 8 → c.sample_buf = bitsVal pend →
      (chanRun spl ss n c).index = c.index ∧
        (chanRun spl ss n c).name = c.name ∧
        (chanRun spl ss n c).emitted =
          c.emitted ++ bitsPacked (pend ++ chanBits c.index ss) ∧
        (chanRun spl ss n c).sample_buf =
          bitsVal (lastBits (pend ++ chanBits c.index ss)) := by
  intro ss
  induction ss with
  | nil =>
      intro n c pend hb hlen hbuf
      have hlt : pend.length < 8 := by rw [hlen]; omega
      refine ⟨rfl, rfl, ?_, ?_⟩
      · simp [chanRun, chanBits, bitsPacked_short pend hlt]
      · simp [chanRun, chanBits, lastBits_short pend hlt, hbuf]
  | cons s ss ih =>
      intro n c pend hb hlen hbuf
      have hdvd : 8 ∣ spl := Nat.dvd_of_mod_eq_zero h8
      have hmm : n % spl % 8 = n % 8 := Nat.mod_mod_of_dvd n hdvd
      have hcnt8 : (n % spl + 1) % 8 = (n + 1) % 8 := by
        conv_lhs => rw [Nat.add_mod]
        conv_rhs => rw [Nat.add_mod]
        rw [hmm]
      have hn8 : n % 8 < 8 := Nat.mod_lt _ (by omega)
      have hblt : c.sample_buf < 128 := by
        have hv := bitsVal_lt pend hb
        have hp : 2 ^ pend.length ≤ 2 ^ 7 :=
          Nat.pow_le_pow_right (by omega) (by omega)
        simp only [Nat.pow_succ] at hp
        rw [hbuf]; omega
      have hbA : bufAfter s c = bitsVal (pend ++ [bitOfSample s c.index]) := by
        rw [bufAfter_eq s c hblt, bitsVal_append_bit, hbuf]
      have hble : bitOfSample s c.index ≤ 1 := bitOfSample_le_one s c.index
      have hchb : chanBits c.index (s :: ss) =
          bitOfSample s c.index :: chanBits c.index ss := rfl
      have hunf : chanRun spl (s :: ss) n c =
          chanRun spl ss (n + 1) (chanStep (n % spl + 1) spl s c) := rfl
      have hsplit : pend ++ bitOfSample s c.index :: chanBits c.index ss =
          pend ++ [bitOfSample s c.index] ++ chanBits c.index ss := by simp
      by_cases hA : (n + 1) % 8 = 0
      · -- this sample completes a byte: the accumulator is rendered and reset
        have hemit : emitsByte (n % spl + 1) := ⟨by omega, by rw [hcnt8]; exact hA⟩
        have hstep : chanStep (n % spl + 1) spl s c =
            { c with
              sample_buf := 0,
              emitted := c.emitted ++ [bufAfter s c],
              line := if n % spl + 1 = spl then c.name ++ [58]
                      else lineAfterHex (n % spl + 1) s c } := by
          simp [chanStep, if_pos hemit]
        have h7 : n % 8 = 7 := by omega
        have hglen : (pend ++ [bitOfSample s c.index]).length = 8 := by
          simp [hlen, h7]
        have ihr := ih (n + 1) (chanStep (n % spl + 1) spl s c) []
          (by intro b hbm; simp at hbm) (by simp [hA]) (by rw [hstep]; rfl)
        have hidx : (chanStep (n % spl + 1) spl s c).index = c.index := by rw [hstep]
        have hnm : (chanStep (n % spl + 1) spl s c).name = c.name := by rw [hstep]
        have hem : (chanStep (n % spl + 1) spl s c).emitted =
            c.emitted ++ [bufAfter s c] := by rw [hstep]
        rw [hidx, hnm, hem] at ihr
        rw [hunf]
        refine ⟨ihr.1, ihr.2.1, ?_, ?_⟩
        · rw [ihr.2.2.1, hchb, hsplit, bitsPacked_group _ _ hglen, hbA]
          simp [List.append_assoc]
        · rw [ihr.2.2.2, hchb, hsplit, lastBits_append_group _ _ hglen]
          simp
      · -- mid-byte sample: the accumulator keeps the grown pending bits
        have hnemit : ¬emitsByte (n % spl + 1) := fun hc => hA (hcnt8 ▸ hc.2)
        have hstep : chanStep (n % spl + 1) spl s c =
            { c with
              sample_buf := bufAfter s c,
              line := if n % spl + 1 = spl then c.name ++ [58]
                      else lineAfterHex (n % spl + 1) s c } := by
          simp [chanStep, if_neg hnemit]
        have hlen' : (pend ++ [bitOfSample s c.index]).length = (n + 1) % 8 := by
          simp only [List.length_append, List.length_singleton, hlen]
          omega
        have ihr := ih (n + 1) (chanStep (n % spl + 1) spl s c)
          (pend ++ [bitOfSample s c.index])
          (by
            intro b hbm
            rcases List.mem_append.mp hbm with hbm | hbm
            · exact hb b hbm
            · rw [List.mem_singleton.mp hbm]; exact hble)
          hlen' (by rw [hstep]; exact hbA)
        have hidx : (chanStep (n % spl + 1) spl s c).index = c.index := by rw [hstep]
        have hnm : (chanStep (n % spl + 1) spl s c).name = c.name := by rw [hstep]
        have hem : (chanStep (n % spl + 1) spl s c).emitted = c.emitted := by
          rw [hstep]
        rw [hidx, hnm, hem] at ihr
        rw [hunf]
        refine ⟨ihr.1, ihr.2.1, ?_, ?_⟩
        · rw [ihr.2.2.1, hchb, hsplit]
        · rw [ihr.2.2.2, hchb, hsplit]

/-! ## Multi-packet runs -/

/-- The samples delivered by one logic packet `(unitsize, data)`, as
suffix views. -/
def pktSamples (p : Nat × List Nat) : List (List Nat) :=
  samplesOf p.1 p.2 (numSamples p.2.length p.1)

/-- The samples delivered by a sequence of logic packets. -/
def suffSamples (pkts : List (Nat × List Nat)) : List (List Nat) :=
  (pkts.map pktSamples).flatten

theorem chanRun_append (spl : Nat) :
    ∀ (ss1 ss2 : List (List Nat)) (n : Nat) (c : ChanState),
      chanRun spl (ss1 ++ ss2) n c =
        chanRun spl ss2 (n + ss1.length) (chanRun spl ss1 n c) := by
  intro ss1
  induction ss1 with
  | nil => intro ss2 n c; simp [chanRun]
  | cons s ss ih =>
      intro ss2 n c
      have hlen : n + (s :: ss).length = n + 1 + ss.length := by
        simp only [List.length_cons]; omega
      rw [List.cons_append]
      rw [show chanRun spl (s :: (ss ++ ss2)) n c =
          chanRun spl (ss ++ ss2) (n + 1) (chanStep (n % spl + 1) spl s c) from rfl]
      rw [show chanRun spl (s :: ss) n c =
          chanRun spl ss (n + 1) (chanStep (n % spl + 1) spl s c) from rfl]
      rw [hlen, ih]

theorem runLogic_chans (spl : Nat) (hpos : 0 < spl) :
    ∀ (pkts : List (Nat × List Nat)) (o : Output) (sdi : Device) (ctx : Ctx) (n : Nat),
      o.sdi = some sdi → o.internal = some ctx →
      ctx.samples_per_line = spl → ctx.spl_cnt = n % spl →
      ∃ ctx',
        runReceive (some o)
            (pkts.map (fun p => Packet.SR_DF_LOGIC p.2.length p.1 p.2)) =
          some { o with internal := some ctx' } ∧
        ctx'.samples_per_line = spl ∧
        ctx'.spl_cnt = (n + (suffSamples pkts).length) % spl ∧
        ctx'.chans = ctx.chans.map (chanRun spl (suffSamples pkts) n) := by
  intro pkts
  induction pkts with
  | nil =>
      intro o sdi ctx n ho hint hspl hcnt
      refine ⟨ctx, ?_, hspl, by simpa [suffSamples] using hcnt, ?_⟩
      · rw [← hint]
        rfl
      · rw [show ctx.chans.map (chanRun spl (suffSamples []) n) = ctx.chans.map id from
          List.map_congr_left (fun c _ => rfl)]
        simp
  | cons p pkts ih =>
      intro o sdi ctx n ho hint hspl hcnt
      set ctx1 := (logicLoop p.1 p.2 (numSamples p.2.length p.1)
        { ctx with header := none } (headerTake ctx.header)).1 with hctx1
      have hrec : receive (some o) (Packet.SR_DF_LOGIC p.2.length p.1 p.2) =
          (SR_OK,
           some (logicLoop p.1 p.2 (numSamples p.2.length p.1)
             { ctx with header := none } (headerTake ctx.header)).2,
           some { o with internal := some ctx1 }) := by
        simp [receive, ho, hint, hctx1]
      have hloop : ctx1 = (runSamples { ctx with header := none }
          (pktSamples p) (headerTake ctx.header)).1 := by
        rw [hctx1, logicLoop_eq_runSamples]
        rfl
      have hchs := runSamples_chans spl hpos (pktSamples p) n
        { ctx with header := none } (headerTake ctx.header) hspl hcnt
      have h1spl : ctx1.samples_per_line = spl := by
        rw [hloop, runSamples_samples_per_line]
        exact hspl
      have h1cnt : ctx1.spl_cnt = (n + (pktSamples p).length) % spl := by
        rw [hloop]; exact hchs.2
      have h1chans : ctx1.chans = ctx.chans.map (chanRun spl (pktSamples p) n) := by
        rw [hloop]; exact hchs.1
      obtain ⟨ctx', hrun', hspl', hcnt', hchans'⟩ :=
        ih { o with internal := some ctx1 } sdi ctx1 (n + (pktSamples p).length)
          (by simp [ho]) rfl h1spl h1cnt
      refine ⟨ctx', ?_, hspl', ?_, ?_⟩
      · simp only [List.map_cons, runReceive, hrec]
        rw [hrun']
      · rw [hcnt']
        have : suffSamples (p :: pkts) = pktSamples p ++ suffSamples pkts := by
          simp [suffSamples]
        rw [this]
        congr 1
        simp only [List.length_append]
        omega
      · rw [hchans', h1chans, List.map_map]
        have : suffSamples (p :: pkts) = pktSamples p ++ suffSamples pkts := by
          simp [suffSamples]
        rw [this]
        refine List.map_congr_left (fun c _ => ?_)
        simp only [Function.comp]
        rw [chanRun_append]

/-! ## Concrete fixtures used by witnesses and counterexamples -/

/-- A single enabled logic channel named `D0` at bit index 0. -/
def chanD0 : Channel :=
  { index := 0, typ := SR_CHANNEL_LOGIC, enabled := true, name := ascii "D0" }

/-- A device exposing only `chanD0`, with no readable samplerate. -/
def devD0 : Device := { channels := [chanD0], samplerate := none }

/-- A fresh output handle on `devD0` with line-width parameter `p`. -/
def mkOut (p : Option (List Nat)) : Output :=
  { sdi := some devD0, param := p, internal := none }

/-- A mid-line state: line width 8, three samples buffered (bits `101`),
header already consumed. -/
def ctx3 : Ctx :=
  { samples_per_line := 8, spl_cnt := 3, trigger := -1,
    chans := [{ index := 0, name := ascii "D0", sample_buf := 5,
                line := ascii "D0:", emitted := [] }],
    header := none }

/-- The handle carrying `ctx3`. -/
def out3 : Output := { sdi := some devD0, param := none, internal := some ctx3 }

/-! ## Claim theorems -/

/-- C5: `init` parses a present line-width parameter with
`strtoul(..., 10)` (clamped at `ULONG_MAX` on overflow) converted to
`int`, returning `SR_ERR_ARG` whenever that value is below 1 — in
particular when the digit value is zero or the string is unparseable
(`"0"`, `"abc"`), and also when the value overflows `int`
(`"2147483648"`); for a positive digit value in `int` range it succeeds
with `samples_per_line` set to exactly that value; an absent parameter
defaults `samples_per_line` to 192. -/
theorem C5_init_param_parsing (o : Output) (sdi : Device) (ho : o.sdi = some sdi) :
    (∀ p, o.param = some p → p ≠ [] →
      (intOfULong (strtoul10 p) < 1 →
        init (some o) = (SR_ERR_ARG, some { o with internal := some initCtx0 })) ∧
      (1 ≤ intOfULong (strtoul10 p) →
        init (some o) =
          (SR_OK, some { o with internal := some (mkCtx sdi (intOfULong (strtoul10 p)).toNat) })) ∧
      (1 ≤ strtoul10Aux p 0 → strtoul10Aux p 0 < 2 ^ 31 →
        init (some o) =
          (SR_OK, some { o with internal := some (mkCtx sdi (strtoul10Aux p 0)) }) ∧
        (mkCtx sdi (strtoul10Aux p 0)).samples_per_line = strtoul10Aux p 0) ∧
      (strtoul10Aux p 0 = 0 →
        init (some o) = (SR_ERR_ARG, some { o with internal := some initCtx0 }))) ∧
    (o.param = none →
      init (some o) =
        (SR_OK, some { o with internal := some (mkCtx sdi DEFAULT_SAMPLES_PER_LINE) }) ∧
      (mkCtx sdi DEFAULT_SAMPLES_PER_LINE).samples_per_line = 192) ∧
    (init (some { o with param := some (ascii "0") })).1 = SR_ERR_ARG ∧
    (init (some { o with param := some (ascii "abc") })).1 = SR_ERR_ARG ∧
    (init (some { o with param := some (ascii "2147483648") })).1 = SR_ERR_ARG := by
  have h0 : ascii "0" = [48] := rfl
  have habc : ascii "abc" = [97, 98, 99] := rfl
  have hbig : ascii "2147483648" = [50, 49, 52, 55, 52, 56, 51, 54, 52, 56] := rfl
  refine ⟨?_, ?_, ?_, ?_, ?_⟩
  · intro p hp hne
    have herr : intOfULong (strtoul10 p) < 1 →
        init (some o) = (SR_ERR_ARG, some { o with internal := some initCtx0 }) := by
      intro hlt
      simp [init, ho, hp, hne, hlt]
    have hsucc : 1 ≤ intOfULong (strtoul10 p) →
        init (some o) =
          (SR_OK, some { o with internal := some (mkCtx sdi (intOfULong (strtoul10 p)).toNat) }) := by
      intro hge
      have hlt : ¬intOfULong (strtoul10 p) < 1 := by omega
      simp [init, ho, hp, hne, hlt]
    refine ⟨herr, hsucc, ?_, ?_⟩
    · intro hv1 hv2
      have hle : strtoul10Aux p 0 ≤ ULONG_MAX := by
        have hp31 : (2 : Nat) ^ 31 ≤ ULONG_MAX := by
          unfold ULONG_MAX
          norm_num
        omega
      have hmin : strtoul10 p = strtoul10Aux p 0 := by
        unfold strtoul10
        exact min_eq_left hle
      have hio : intOfULong (strtoul10 p) = ((strtoul10Aux p 0 : Nat) : Int) := by
        rw [hmin]
        unfold intOfULong
        have h32 : strtoul10Aux p 0 < 2 ^ 32 :=
          lt_trans hv2 (by norm_num)
        rw [Nat.mod_eq_of_lt h32, if_pos hv2]
      have hge : 1 ≤ intOfULong (strtoul10 p) := by
        rw [hio]
        exact_mod_cast hv1
      have heq := hsucc hge
      rw [hio] at heq
      exact ⟨heq, rfl⟩
    · intro hz
      apply herr
      have hzz : strtoul10 p = 0 := by
        unfold strtoul10
        rw [hz]
        simp
      rw [hzz]
      decide
  · intro hp
    exact ⟨by simp [init, ho, hp], rfl⟩
  · have hv : intOfULong (strtoul10 [48]) < 1 := by decide
    simp [init, ho, h0, hv]
  · have hv : intOfULong (strtoul10 [97, 98, 99]) < 1 := by decide
    simp [init, ho, habc, hv]
  · have hv : intOfULong (strtoul10 [50, 49, 52, 55, 52, 56, 51, 54, 52, 56]) < 1 := by
      decide
    simp [init, ho, hbig, hv]

/-- C5 witness: the theorem applied to a concrete fresh handle, covering
the zero, overflow and in-range branches. -/
theorem C5_init_param_parsing_witness :
    ((mkOut (some (ascii "7"))).sdi = some devD0) ∧
    (init (some { mkOut (some (ascii "7")) with param := some (ascii "0") })).1 =
      SR_ERR_ARG ∧
    (init (some { mkOut (some (ascii "7")) with param := some (ascii "2147483648") })).1 =
      SR_ERR_ARG ∧
    init (some (mkOut (some (ascii "7")))) =
      (SR_OK, some { mkOut (some (ascii "7")) with
        internal := some (mkCtx devD0 (strtoul10Aux (ascii "7") 0)) }) := by
  refine ⟨rfl, (C5_init_param_parsing (mkOut (some (ascii "7"))) devD0 rfl).2.2.1,
    (C5_init_param_parsing (mkOut (some (ascii "7"))) devD0 rfl).2.2.2.2, ?_⟩
  have h := ((C5_init_param_parsing (mkOut (some (ascii "7"))) devD0 rfl).1
    (ascii "7") rfl (by decide)).2.2.1 (by decide) (by decide)
  exact h.1

/-- C7: a trigger-marker packet records the current in-line sample count
as the pending trigger offset (overwriting any earlier value), produces no
chunk, and leaves every other component of the encoder state unchanged. -/
theorem C7_trigger_records_offset (o : Output) (sdi : Device) (ctx : Ctx)
    (ho : o.sdi = some sdi) (hint : o.internal = some ctx) :
    receive (some o) Packet.SR_DF_TRIGGER =
      (SR_OK, none,
       some { o with internal := some { ctx with trigger := Int.ofNat ctx.spl_cnt } }) := by
  simp [receive, ho, hint]

/-- A concretely initialised context and handle (default line width). -/
def ctxW : Ctx := mkCtx devD0 192

/-- The handle carrying `ctxW`. -/
def outW : Output := { mkOut none with internal := some ctxW }

/-- C7 witness: the theorem applied to a concretely initialised handle. -/
theorem C7_trigger_records_offset_witness :
    receive (some outW) Packet.SR_DF_TRIGGER =
      (SR_OK, none,
       some { outW with internal := some { ctxW with trigger := Int.ofNat ctxW.spl_cnt } }) :=
  C7_trigger_records_offset outW devD0 ctxW rfl rfl

/-- C6 counterexample: initialising with the invalid line-width parameter
`"0"` fails with `SR_ERR_ARG`, yet the handle *does* keep an encoder
state (the zeroed context allocated before the parameter check), and a
subsequent `receive` call on that handle is accepted (`SR_OK`), not
rejected as an argument error. -/
theorem C6_failed_init_counterexample :
    (init (some (mkOut (some (ascii "0"))))).1 = SR_ERR_ARG ∧
    theInternal (init (some (mkOut (some (ascii "0"))))).2 ≠ none ∧
    (receive (init (some (mkOut (some (ascii "0"))))).2 Packet.SR_DF_TRIGGER).1 =
      SR_OK := by
  decide

/-- C6 (amended): if `init` fails on a null handle or null device, no
encoder state is attached and any `receive` on a state-less handle is
rejected with `SR_ERR_ARG`; but if `init` fails on an invalid line-width
parameter, the zeroed context allocated before the parameter check stays
attached to the handle and subsequent `receive` calls are accepted. -/
theorem C6_failed_init_state (o : Output) (sdi : Device) (p : List Nat) :
    (init none = (SR_ERR_ARG, none)) ∧
    (o.sdi = none → init (some o) = (SR_ERR_ARG, some o)) ∧
    (o.internal = none → ∀ pkt, (receive (some o) pkt).1 = SR_ERR_ARG ∧
      (receive (some o) pkt).2.1 = none) ∧
    (o.sdi = some sdi → o.param = some p → p ≠ [] → strtoul10 p < 1 →
      init (some o) = (SR_ERR_ARG, some { o with internal := some initCtx0 }) ∧
      (receive (some { o with internal := some initCtx0 }) Packet.SR_DF_TRIGGER).1 =
        SR_OK) := by
  refine ⟨rfl, ?_, ?_, ?_⟩
  · intro hn
    simp [init, hn]
  · intro hn pkt
    rcases hs : o.sdi with _ | sdi'
    · simp [receive, hs]
    · simp [receive, hs, hn]
  · intro ho hp hne hlt
    have hzz : strtoul10 p = 0 := by omega
    have hlt' : intOfULong (strtoul10 p) < 1 := by
      rw [hzz]
      decide
    refine ⟨by simp [init, ho, hp, hne, hlt'], by simp [receive, ho]⟩

/-- C6 (amended) witness: the theorem applied at a concrete handle and
parameter. -/
theorem C6_failed_init_state_witness :
    init none = (SR_ERR_ARG, none) ∧
    (init (some (mkOut (some (ascii "0")))) =
      (SR_ERR_ARG, some { mkOut (some (ascii "0")) with internal := some initCtx0 }) ∧
    (receive (some { mkOut (some (ascii "0")) with internal := some initCtx0 })
        Packet.SR_DF_TRIGGER).1 = SR_OK) := by
  refine ⟨(C6_failed_init_state (mkOut (some (ascii "0"))) devD0 (ascii "0")).1, ?_⟩
  exact (C6_failed_init_state (mkOut (some (ascii "0"))) devD0 (ascii "0")).2.2.2
    rfl rfl (by decide) (by decide)

/-- C1 counterexample: a sample-batch packet whose length (3) is not a
multiple of the unit size (2) is *not* rejected: `receive` returns `SR_OK`
(never `SR_ERR_DATA`) and sets a chunk (here the buffered header). -/
theorem C1_no_length_validation_counterexample :
    (receive (init (some (mkOut (some (ascii "8"))))).2
        (Packet.SR_DF_LOGIC 3 2 [0, 0, 0])).1 ≠ SR_ERR_DATA ∧
    (receive (init (some (mkOut (some (ascii "8"))))).2
        (Packet.SR_DF_LOGIC 3 2 [0, 0, 0])).1 = SR_OK ∧
    (receive (init (some (mkOut (some (ascii "8"))))).2
        (Packet.SR_DF_LOGIC 3 2 [0, 0, 0])).2.1 ≠ none := by
  decide

theorem samplesOf_length (u : Nat) :
    ∀ (n : Nat) (d : List Nat), (samplesOf u d n).length = n := by
  intro n
  induction n with
  | zero => intro d; rfl
  | succ n ih => intro d; simp [samplesOf, ih]

/-- C8: a sample-batch packet during which the in-line counter cannot
reach the line width produces a chunk holding nothing but the buffered
header (so an empty chunk whenever the header was already consumed), and
the header is consumed by the packet: afterwards the state holds no
header, so every later chunk starts without it. -/
theorem C8_no_boundary_header_only (o : Output) (sdi : Device) (ctx : Ctx)
    (L u : Nat) (d : List Nat)
    (ho : o.sdi = some sdi) (hint : o.internal = some ctx)
    (hnof : ctx.spl_cnt + numSamples L u < ctx.samples_per_line) :
    (receive (some o) (Packet.SR_DF_LOGIC L u d)).2.1 = some (headerTake ctx.header) ∧
    (ctx.header = none →
      (receive (some o) (Packet.SR_DF_LOGIC L u d)).2.1 = some []) ∧
    (theInternal (receive (some o) (Packet.SR_DF_LOGIC L u d)).2.2).map Ctx.header =
      some none := by
  have hrec : receive (some o) (Packet.SR_DF_LOGIC L u d) =
      (SR_OK,
       some (logicLoop u d (numSamples L u) { ctx with header := none }
         (headerTake ctx.header)).2,
       some { o with internal := some (logicLoop u d (numSamples L u)
         { ctx with header := none } (headerTake ctx.header)).1 }) := by
    simp [receive, ho, hint]
  have hnf := runSamples_no_flush (samplesOf u d (numSamples L u))
    { ctx with header := none } (headerTake ctx.header)
    (by simpa [samplesOf_length] using hnof)
  refine ⟨?_, ?_, ?_⟩
  · rw [hrec]
    simp only [logicLoop_eq_runSamples]
    rw [hnf.1]
  · intro hh
    rw [hrec]
    simp only [logicLoop_eq_runSamples]
    rw [hnf.1, hh]
    rfl
  · rw [hrec]
    simp only [theInternal, logicLoop_eq_runSamples, Option.map]
    rw [runSamples_header]

/-- C8 witness: the theorem applied to a freshly initialised concrete
handle fed three samples with a line width of 192. -/
theorem C8_no_boundary_header_only_witness :
    (receive (some outW) (Packet.SR_DF_LOGIC 3 1 [1, 0, 1])).2.1 =
      some (headerTake ctxW.header) ∧
    (ctxW.header = none →
      (receive (some outW) (Packet.SR_DF_LOGIC 3 1 [1, 0, 1])).2.1 = some []) ∧
    (theInternal (receive (some outW) (Packet.SR_DF_LOGIC 3 1 [1, 0, 1])).2.2).map
      Ctx.header = some none :=
  C8_no_boundary_header_only outW devD0 ctxW 3 1 [1, 0, 1] rfl rfl (by decide)

/-- C10: a trigger offset still pending at end of stream is never
rendered: the final chunk is identical whatever the pending offset, and
when a partial line is flushed it consists of the per-channel data lines
only (no caret marker line); with nothing buffered no chunk is
produced or needed. -/
theorem C10_end_ignores_trigger (o : Output) (sdi : Device) (ctx : Ctx) (t : Int)
    (ho : o.sdi = some sdi) (hint : o.internal = some ctx) :
    (receive (some { o with internal := some { ctx with trigger := t } })
        Packet.SR_DF_END).2.1 =
      (receive (some o) Packet.SR_DF_END).2.1 ∧
    (ctx.spl_cnt ≠ 0 →
      (receive (some o) Packet.SR_DF_END).2.1 =
        some ((ctx.chans.map (fun c => endLine ctx.spl_cnt c ++ [10])).flatten)) ∧
    (ctx.spl_cnt = 0 →
      (receive (some o) Packet.SR_DF_END).2.1 = none) := by
  refine ⟨?_, ?_, ?_⟩
  · by_cases hz : ctx.spl_cnt = 0
    · simp [receive, ho, hint, hz]
    · simp [receive, ho, hint, hz, endFlush_out]
  · intro hz
    simp [receive, ho, hint, hz, endFlush_out]
  · intro hz
    simp [receive, ho, hint, hz]

/-- C10 witness: the theorem applied to a concrete mid-line state. -/
theorem C10_end_ignores_trigger_witness :
    (receive (some { out3 with internal := some { ctx3 with trigger := 5 } })
        Packet.SR_DF_END).2.1 =
      (receive (some out3) Packet.SR_DF_END).2.1 ∧
    (ctx3.spl_cnt ≠ 0 →
      (receive (some out3) Packet.SR_DF_END).2.1 =
        some ((ctx3.chans.map (fun c => endLine ctx3.spl_cnt c ++ [10])).flatten)) ∧
    (ctx3.spl_cnt = 0 →
      (receive (some out3) Packet.SR_DF_END).2.1 = none) :=
  C10_end_ignores_trigger out3 devD0 ctx3 5 rfl rfl

/-- The spl=8 three-sample end-of-stream scenario of C3: one channel at
bit index 0, three samples carrying bits `b1 b2 b3`, flushed at end of
stream as the byte `(4*b1 + 2*b2 + b3) * 2^5` — the three collected bits
left-shifted by five — on the channel's full line with terminator. -/
def C3pipeline (b1 b2 b3 : Bool) : Prop :=
  (receive (receive (init (some (mkOut (some (ascii "8"))))).2
      (Packet.SR_DF_LOGIC 3 1
        [if b1 then 1 else 0, if b2 then 1 else 0, if b3 then 1 else 0])).2.2
    Packet.SR_DF_END).2.1 =
  some (ascii "D0:" ++
    hexBytes ((4 * (if b1 then (1:Nat) else 0) + 2 * (if b2 then 1 else 0) +
      (if b3 then 1 else 0)) * 2 ^ 5) ++ [32] ++ [10])

/-- C3: at end of stream with `spl_cnt % 8 ≠ 0`, each channel's final
rendered byte is its bit accumulator left-shifted by
`8 - spl_cnt % 8`, and the chunk holds every channel's full line plus a
terminator; in particular with line width 8 and 3 buffered samples each
channel's byte is its 3 collected bits shifted left by 5. -/
theorem C3_end_partial_byte (o : Output) (sdi : Device) (ctx : Ctx)
    (ho : o.sdi = some sdi) (hint : o.internal = some ctx)
    (hr : ctx.spl_cnt % 8 ≠ 0) :
    (receive (some o) Packet.SR_DF_END).2.1 =
      some ((ctx.chans.map (fun c =>
        c.line ++ hexBytes (c.sample_buf * 2 ^ (8 - ctx.spl_cnt % 8)) ++ [32] ++
          [10])).flatten) ∧
    (∀ b1 b2 b3 : Bool, C3pipeline b1 b2 b3) := by
  constructor
  · have hz : ctx.spl_cnt ≠ 0 := fun h => hr (by simp [h])
    simp [receive, ho, hint, hz, endFlush_out, endLine, hr, endVal,
      Nat.shiftLeft_eq, List.append_assoc]
  · intro b1 b2 b3
    unfold C3pipeline
    cases b1 <;> cases b2 <;> cases b3 <;> decide

/-- C3 witness: the theorem applied to a concrete three-sample state. -/
theorem C3_end_partial_byte_witness :
    (receive (some out3) Packet.SR_DF_END).2.1 =
      some ((ctx3.chans.map (fun c =>
        c.line ++ hexBytes (c.sample_buf * 2 ^ (8 - ctx3.spl_cnt % 8)) ++ [32] ++
          [10])).flatten) ∧
    (∀ b1 b2 b3 : Bool, C3pipeline b1 b2 b3) :=
  C3_end_partial_byte out3 devD0 ctx3 rfl rfl (by decide)

/-- C4: when the sample completing a line arrives with a trigger offset
`t` pending, the flushed chunk is the channels' data lines followed by
exactly one caret marker line `T:` + `t + t/8` spaces + `^ ` + decimal
`t` (+ terminator), and the pending trigger is cleared by the flush. -/
theorem C4_flush_renders_caret (o : Output) (sdi : Device) (ctx : Ctx)
    (u : Nat) (d : List Nat) (t : Nat)
    (ho : o.sdi = some sdi) (hint : o.internal = some ctx)
    (hh : ctx.header = none) (hu : 0 < u)
    (hne : ctx.chans ≠ []) (hcnt : ctx.spl_cnt + 1 = ctx.samples_per_line)
    (htrig : ctx.trigger = Int.ofNat t) :
    (receive (some o) (Packet.SR_DF_LOGIC u u d)).2.1 =
      some ((ctx.chans.map (fun c =>
          lineAfterHex (ctx.spl_cnt + 1) d c ++ [10])).flatten ++
        ([84, 58] ++ List.replicate (t + t / 8) 32 ++ [94, 32] ++ decAscii t ++ [10])) ∧
    (theInternal (receive (some o) (Packet.SR_DF_LOGIC u u d)).2.2).map Ctx.trigger =
      some (-1) := by
  have hn1 : numSamples u u = 1 := by
    unfold numSamples
    rw [if_neg (by omega), if_pos (Nat.le_refl u)]
    simp
  have hrec : receive (some o) (Packet.SR_DF_LOGIC u u d) =
      (SR_OK,
       some (logicLoop u d (numSamples u u) { ctx with header := none }
         (headerTake ctx.header)).2,
       some { o with internal := some (logicLoop u d (numSamples u u)
         { ctx with header := none } (headerTake ctx.header)).1 }) := by
    simp [receive, ho, hint]
  have hout0 : headerTake ctx.header = [] := by rw [hh]; rfl
  have hone : logicLoop u d (numSamples u u) { ctx with header := none } [] =
      processSample { ctx with header := none } d [] := by
    rw [hn1]
    rfl
  have htpos : ctx.trigger > -1 := by
    rw [htrig]
    have hnn : (0 : Int) ≤ Int.ofNat t := Int.ofNat_nonneg t
    omega
  have hflush : flushAppend (ctx.spl_cnt + 1) ctx.samples_per_line d ctx.chans
      ctx.trigger =
      (ctx.chans.map (fun c => lineAfterHex (ctx.spl_cnt + 1) d c ++ [10])).flatten ++
        triggerLine t := by
    rw [flushAppend, if_pos hcnt]
    rw [if_pos ⟨hne, htpos⟩]
    rw [htrig]
    rfl
  have hcond : ctx.spl_cnt + 1 = ctx.samples_per_line ∧ ctx.chans ≠ [] ∧
      ctx.trigger > -1 := ⟨hcnt, hne, htpos⟩
  constructor
  · rw [hrec]
    simp only [hout0, hone, processSample_snd, List.nil_append]
    rw [hflush]
    rfl
  · rw [hrec]
    simp only [hout0, hone, theInternal, Option.map_some, processSample_fst]
    rw [if_pos hcond]
    rfl

/-- A one-away-from-flush state with a pending trigger recorded at in-line
offset 1: line width 2, one sample buffered. -/
def ctx4 : Ctx :=
  { samples_per_line := 2, spl_cnt := 1, trigger := 1,
    chans := [{ index := 0, name := ascii "D0", sample_buf := 1,
                line := ascii "D0:", emitted := [] }],
    header := none }

/-- The handle carrying `ctx4`. -/
def out4 : Output := { sdi := some devD0, param := none, internal := some ctx4 }

/-- What the end-of-stream flush does to one channel (cf. `endFlush`). -/
def endStep (cnt : Nat) (c : ChanState) : ChanState :=
  { c with
    line := endLine cnt c,
    emitted := if cnt % 8 ≠ 0 then c.emitted ++ [endVal cnt c] else c.emitted }

theorem endFlush_chans_map (cnt : Nat) (cs : List ChanState) (out : List Nat) :
    (endFlush cnt cs out).1 = cs.map (endStep cnt) := by
  rw [endFlush_chans]
  rfl

theorem lastBits_length (bs : List Nat) : (lastBits bs).length = bs.length % 8 := by
  unfold lastBits
  simp only [List.length_drop]
  omega

theorem decodeBytes_append (l1 l2 : List Nat) :
    decodeBytes (l1 ++ l2) = decodeBytes l1 ++ decodeBytes l2 := by
  simp [decodeBytes]

theorem decodeBytes_single (v : Nat) : decodeBytes [v] = byteBitsMSB v := by
  simp [decodeBytes]

theorem take_lastBits_append (bs : List Nat) :
    bs.take (bs.length - bs.length % 8) ++ lastBits bs = bs := by
  unfold lastBits
  exact List.take_append_drop _ _

theorem chanBits_le_one (idx : Nat) (ss : List (List Nat)) :
    ∀ b ∈ chanBits idx ss, b ≤ 1 := by
  intro b hb
  simp only [chanBits, List.mem_map] at hb
  obtain ⟨s, _, rfl⟩ := hb
  exact bitOfSample_le_one s idx

theorem chanBits_length (idx : Nat) (ss : List (List Nat)) :
    (chanBits idx ss).length = ss.length := by
  simp [chanBits]

theorem decode_full (bs : List Nat) (hble : ∀ b ∈ bs, b ≤ 1)
    (hr : bs.length % 8 = 0) :
    (decodeBytes (bitsPacked bs)).take bs.length = bs := by
  rw [decodeBytes_bitsPacked bs hble, hr, Nat.sub_zero, List.take_length,
    List.take_length]

/-- A channel's rendered-byte record after the whole stream (logic packets
then end-of-stream flush), starting from a fresh channel, decodes back to
the channel's bit sequence, provided the line width is a multiple of 8. -/
theorem chan_decode_complete (spl : Nat) (h8 : spl % 8 = 0) (hpos : 0 < spl)
    (ss : List (List Nat)) (c0 : ChanState)
    (hbuf : c0.sample_buf = 0) (hemit : c0.emitted = []) :
    (decodeBytes (if ss.length % spl ≠ 0
        then (endStep (ss.length % spl) (chanRun spl ss 0 c0)).emitted
        else (chanRun spl ss 0 c0).emitted)).take ss.length =
      chanBits c0.index ss := by
  obtain ⟨hidx, hname, hemitF, hbufF⟩ := chanRun_spec spl h8 hpos ss 0 c0 []
    (by intro b hb; simp at hb) (by simp) (by simpa using hbuf)
  set bits := chanBits c0.index ss with hbits
  have hblen : bits.length = ss.length := chanBits_length c0.index ss
  have hble : ∀ b ∈ bits, b ≤ 1 := chanBits_le_one c0.index ss
  have hemitF' : (chanRun spl ss 0 c0).emitted = bitsPacked bits := by
    rw [hemitF, hemit]
    simp
  have hbufF' : (chanRun spl ss 0 c0).sample_buf = bitsVal (lastBits bits) := by
    rw [hbufF]
    simp
  have hc8 : (bits.length % spl) % 8 = bits.length % 8 :=
    Nat.mod_mod_of_dvd _ (Nat.dvd_of_mod_eq_zero h8)
  rw [← hblen]
  by_cases hz : bits.length % spl ≠ 0
  · rw [if_pos hz]
    by_cases hr : bits.length % 8 = 0
    · have hcond : ¬((bits.length % spl) % 8 ≠ 0) := by
        rw [hc8]
        simpa using hr
      simp only [endStep, if_neg hcond]
      rw [hemitF']
      exact decode_full bits hble hr
    · have hcond : (bits.length % spl) % 8 ≠ 0 := by
        rw [hc8]
        exact hr
      simp only [endStep, if_pos hcond]
      rw [hemitF', decodeBytes_append, decodeBytes_bitsPacked bits hble,
        decodeBytes_single]
      have hv : endVal (bits.length % spl) (chanRun spl ss 0 c0) =
          bitsVal (lastBits bits) * 2 ^ (8 - (lastBits bits).length) := by
        unfold endVal
        rw [hbufF', hc8, Nat.shiftLeft_eq, ← lastBits_length]
      rw [hv]
      rw [byteBitsMSB_padded (lastBits bits)
        (by rw [lastBits_length]; omega)
        (fun b hb => hble b (List.mem_of_mem_drop hb))]
      rw [← List.append_assoc, take_lastBits_append]
      exact List.take_left ..
  · rw [if_neg hz]
    rw [hemitF']
    have hdvd : (8 : Nat) ∣ bits.length := by
      have h1 : spl ∣ bits.length := Nat.dvd_of_mod_eq_zero (by omega)
      exact dvd_trans (Nat.dvd_of_mod_eq_zero h8) h1
    have hr : bits.length % 8 = 0 := Nat.dvd_iff_mod_eq_zero.mp hdvd
    exact decode_full bits hble hr

theorem runReceive_append (o : Option Output) (l1 l2 : List Packet) :
    runReceive o (l1 ++ l2) = runReceive (runReceive o l1) l2 := by
  induction l1 generalizing o with
  | nil => rfl
  | cons p l1 ih => simp [runReceive, ih]

/-- Freshly initialised channels carry a zero accumulator and an empty
byte record. -/
theorem mkCtx_chan_fresh (sdi : Device) (spl : Nat) :
    ∀ c ∈ (mkCtx sdi spl).chans, c.sample_buf = 0 ∧ c.emitted = [] := by
  intro c hc
  simp only [mkCtx, List.mem_map] at hc
  obtain ⟨ch, _, rfl⟩ := hc
  exact ⟨rfl, rfl⟩

/-- A fresh session handle: device `sdi`, no parameter, the context built
by a successful parameterless `init`. -/
def o0 (sdi : Device) (spl : Nat) : Output :=
  { sdi := some sdi, param := none, internal := some (mkCtx sdi spl) }

/-- C2 counterexample input: 17 one-byte samples, only sample 9 carrying a
set bit, at line width 9 (not a multiple of 8). -/
def d17 : List Nat := [0, 0, 0, 0, 0, 0, 0, 0, 1, 0, 0, 0, 0, 0, 0, 0, 0]

/-- C2 counterexample: with samples-per-line 9 (not a multiple of 8),
decoding the bytes emitted for the only channel — end-of-stream flush
included — does *not* reproduce the channel's input bits: sample 9's set
bit is shifted out of the 8-bit accumulator before the next byte is
rendered, so the decode yields all-zero bits. -/
theorem C2_roundtrip_counterexample :
    (theInternal (receive (receive (init (some (mkOut (some (ascii "9"))))).2
          (Packet.SR_DF_LOGIC 17 1 d17)).2.2
        Packet.SR_DF_END).2.2).map
      (fun c => c.chans.map (fun ch => (decodeBytes ch.emitted).take 17)) ≠
    some [chanBits 0 (samplesOf 1 d17 (numSamples 17 1))] := by
  decide

/-- C2 (amended to line widths that are multiples of 8): for every
sequence of well-formed sample-batch packets and every channel selection,
after the stream and its end-of-stream flush, decoding the bytes emitted
for each selected channel (most-significant bit first within each byte,
bytes in emission order) and truncating at the sample count reproduces
exactly the bits extracted from the input samples at that channel's bit
index (`bitOfSample`: bit `index % 8` of byte `index / 8` of each
sample). -/
theorem C2_hex_roundtrip (sdi : Device) (spl : Nat)
    (h8 : spl % 8 = 0) (hpos : 0 < spl)
    (pkts : List (Nat × List Nat))
    (hwf : ∀ p ∈ pkts, 0 < p.1 ∧ p.1 ∣ p.2.length ∧ 0 < p.2.length) :
    ∃ ctxF,
      theInternal (runReceive (some (o0 sdi spl))
          ((pkts.map (fun p => Packet.SR_DF_LOGIC p.2.length p.1 p.2)) ++
            [Packet.SR_DF_END])) = some ctxF ∧
      ∀ (j : Nat) (c0 cF : ChanState),
        (mkCtx sdi spl).chans[j]? = some c0 → ctxF.chans[j]? = some cF →
        (decodeBytes cF.emitted).take (suffSamples pkts).length =
          chanBits c0.index (suffSamples pkts) := by
  obtain ⟨ctx', hrun, hspl', hcnt', hchans'⟩ :=
    runLogic_chans spl hpos pkts (o0 sdi spl) sdi (mkCtx sdi spl) 0
      rfl rfl rfl (by simp [mkCtx])
  rw [runReceive_append, hrun]
  simp only [Nat.zero_add] at hcnt'
  have hfresh := mkCtx_chan_fresh sdi spl
  by_cases hz : (suffSamples pkts).length % spl = 0
  · -- the stream ended exactly on a line boundary: no end-of-stream flush
    have hrec : receive (some { o0 sdi spl with internal := some ctx' })
        Packet.SR_DF_END =
        (SR_OK, none, some { o0 sdi spl with internal := some ctx' }) := by
      simp [receive, o0, hcnt', hz]
    refine ⟨ctx', by simp [runReceive, hrec, theInternal], ?_⟩
    intro j c0 cF hj hjF
    rw [hchans'] at hjF
    rw [List.getElem?_map, hj] at hjF
    have hcF : cF = chanRun spl (suffSamples pkts) 0 c0 :=
      (Option.some.inj hjF).symm
    have hc0 := hfresh c0 (List.getElem?_mem hj)
    have := chan_decode_complete spl h8 hpos (suffSamples pkts) c0 hc0.1 hc0.2
    rw [if_neg (by simpa using hz)] at this
    rw [hcF]
    exact this
  · -- a partial line is flushed at end of stream
    have hrec : receive (some { o0 sdi spl with internal := some ctx' })
        Packet.SR_DF_END =
        (SR_OK, some (endFlush ctx'.spl_cnt ctx'.chans []).2,
          some { o0 sdi spl with
            internal := some { ctx' with chans := (endFlush ctx'.spl_cnt ctx'.chans []).1 } }) := by
      have hnz : ctx'.spl_cnt ≠ 0 := by rw [hcnt']; exact hz
      simp [receive, o0, hnz]
    refine ⟨{ ctx' with chans := (endFlush ctx'.spl_cnt ctx'.chans []).1 },
      by simp [runReceive, hrec, theInternal], ?_⟩
    intro j c0 cF hj hjF
    simp only [endFlush_chans_map, hchans', List.map_map] at hjF
    rw [List.getElem?_map, hj] at hjF
    have hcF : cF = endStep ctx'.spl_cnt (chanRun spl (suffSamples pkts) 0 c0) :=
      (Option.some.inj hjF).symm
    have hc0 := hfresh c0 (List.getElem?_mem hj)
    have := chan_decode_complete spl h8 hpos (suffSamples pkts) c0 hc0.1 hc0.2
    rw [if_pos hz] at this
    rw [hcF, hcnt']
    exact this

/-- C2 witness: the amended round-trip applied to a concrete device, line
width 8 and a single three-sample packet. -/
theorem C2_hex_roundtrip_witness :
    ∃ ctxF,
      theInternal (runReceive (some (o0 devD0 8))
          (([(1, [1, 0, 1])].map
            (fun p : Nat × List Nat => Packet.SR_DF_LOGIC p.2.length p.1 p.2)) ++
            [Packet.SR_DF_END])) = some ctxF ∧
      ∀ (j : Nat) (c0 cF : ChanState),
        (mkCtx devD0 8).chans[j]? = some c0 → ctxF.chans[j]? = some cF →
        (decodeBytes cF.emitted).take (suffSamples [(1, [1, 0, 1])]).length =
          chanBits c0.index (suffSamples [(1, [1, 0, 1])]) :=
  C2_hex_roundtrip devD0 8 (by decide) (by decide) [(1, [1, 0, 1])] (by decide)

/-- The C9 truncation scenario: line width 9, 17 one-byte samples; the bit
of sample 9 is `b9` and that of sample 10 is `b10`.  The two bytes the
channel renders are samples 1–8 (zero) and samples 10–17 (`b10` at the
most significant bit): the trailing bit of line 1 (sample 9, `b9`) appears
in neither. -/
def C9pipeline (b9 b10 : Bool) : Prop :=
  (theInternal (receive (init (some (mkOut (some (ascii "9"))))).2
      (Packet.SR_DF_LOGIC 17 1
        [0, 0, 0, 0, 0, 0, 0, 0, if b9 then 1 else 0, if b10 then 1 else 0,
         0, 0, 0, 0, 0, 0, 0])).2.2).map
    (fun c => c.chans.map ChanState.emitted) =
  some [[0, if b10 then 128 else 0]]

/-- C9 counterexample: at line width 9, with only sample 9's bit set, the
first hex byte rendered in the following line is `0x00` — the trailing
bit collected at the end of line 1 is *not* carried into it (the claim
would require a nonzero byte), even though that bit was 1. -/
theorem C9_carry_counterexample :
    (theInternal (receive (init (some (mkOut (some (ascii "9"))))).2
        (Packet.SR_DF_LOGIC 17 1 d17)).2.2).map
      (fun c => c.chans.map ChanState.emitted) = some [[0, 0]] ∧
    bitOfSample (d17.drop 8) 0 = 1 := by
  decide

/-- C9 (amended): flushing a completed line indeed leaves the bit
accumulators untouched, and an accumulator is rendered-and-reset exactly
when the incremented in-line counter hits a multiple of 8; but for a line
width that is not a multiple of 8 the trailing bits are *not* carried into
the following line's first rendered hex byte — the 8-bit (`uint8_t`)
accumulator truncation discards them, and that byte holds exactly the
eight samples following the flush. -/
theorem C9_flush_keeps_accumulator :
    (∀ (spl : Nat) (s : List Nat) (c : ChanState), spl % 8 ≠ 0 →
      (chanStep spl spl s c).sample_buf = bufAfter s c) ∧
    (∀ (cnt spl : Nat) (s : List Nat) (c : ChanState),
      (chanStep cnt spl s c).sample_buf =
        if emitsByte cnt then 0 else bufAfter s c) ∧
    (∀ b9 b10 : Bool, C9pipeline b9 b10) := by
  refine ⟨?_, ?_, ?_⟩
  · intro spl s c h
    have hne : ¬emitsByte spl := fun hc => h hc.2
    simp [chanStep, hne]
  · intro cnt spl s c
    rfl
  · intro b9 b10
    unfold C9pipeline
    cases b9 <;> cases b10 <;> decide

/-! ## Out-of-buffer independence (C1 amended) -/

theorem sampleBit_congr (s1 s2 : List Nat) (idx : Nat)
    (h : s1.getD (idx / 8) 0 = s2.getD (idx / 8) 0) :
    sampleBit s1 idx = sampleBit s2 idx := by
  unfold sampleBit
  rw [h]

theorem chanLoop_congr (cnt spl : Nat) (s1 s2 : List Nat) :
    ∀ (cs : List ChanState) (trig : Int) (out : List Nat),
      (∀ c ∈ cs, sampleBit s1 c.index = sampleBit s2 c.index) →
      chanLoop cnt spl s1 cs trig out = chanLoop cnt spl s2 cs trig out := by
  intro cs
  induction cs with
  | nil => intro trig out h; rfl
  | cons c rest ih =>
      intro trig out h
      have hc : sampleBit s1 c.index = sampleBit s2 c.index := h c (by simp)
      have hb : bufAfter s1 c = bufAfter s2 c := by unfold bufAfter; rw [hc]
      have hl : lineAfterHex cnt s1 c = lineAfterHex cnt s2 c := by
        unfold lineAfterHex
        rw [hb]
      have hstep : chanStep cnt spl s1 c = chanStep cnt spl s2 c := by
        unfold chanStep
        rw [hb, hl]
      have hrest : ∀ x ∈ rest, sampleBit s1 x.index = sampleBit s2 x.index :=
        fun x hx => h x (by simp [hx])
      by_cases hf : cnt = spl
      · simp only [chanLoop, if_pos hf, hstep, hl]
        rw [ih _ _ hrest]
      · simp only [chanLoop, if_neg hf, hstep]
        rw [ih _ _ hrest]

theorem processSample_congr (ctx : Ctx) (s1 s2 out : List Nat)
    (h : ∀ c ∈ ctx.chans, sampleBit s1 c.index = sampleBit s2 c.index) :
    processSample ctx s1 out = processSample ctx s2 out := by
  simp only [processSample]
  rw [chanLoop_congr _ _ s1 s2 ctx.chans ctx.trigger out h]

theorem processSample_indexes (ctx : Ctx) (s out : List Nat) :
    ((processSample ctx s out).1.chans).map ChanState.index =
      ctx.chans.map ChanState.index := by
  rw [processSample_fst]
  simp only [List.map_map]
  exact List.map_congr_left (fun c _ => rfl)

theorem logicLoop_congr (u : Nat) :
    ∀ (n : Nat) (d1 d2 : List Nat) (ctx : Ctx) (out : List Nat),
      (∀ k < n, ∀ i ∈ ctx.chans.map ChanState.index,
        (d1.drop (k * u)).getD (i / 8) 0 = (d2.drop (k * u)).getD (i / 8) 0) →
      logicLoop u d1 n ctx out = logicLoop u d2 n ctx out := by
  intro n
  induction n with
  | zero => intro d1 d2 ctx out h; rfl
  | succ n ih =>
      intro d1 d2 ctx out h
      have h0 : ∀ c ∈ ctx.chans, sampleBit d1 c.index = sampleBit d2 c.index := by
        intro c hc
        apply sampleBit_congr
        have := h 0 (by omega) c.index (List.mem_map_of_mem _ hc)
        simpa using this
      have hps : processSample ctx d1 out = processSample ctx d2 out :=
        processSample_congr ctx d1 d2 out h0
      simp only [logicLoop]
      rw [hps]
      apply ih
      intro k hk i hi
      rw [processSample_indexes] at hi
      rw [List.drop_drop, List.drop_drop]
      rw [show u + k * u = (k + 1) * u from by ring]
      exact h (k + 1) (by omega) i hi

theorem getD_drop (l : List Nat) (m i : Nat) :
    (l.drop m).getD i 0 = l.getD (m + i) 0 := by
  rw [List.getD_eq_getElem?_getD, List.getD_eq_getElem?_getD, List.getElem?_drop]

theorem getD_take_agree (d1 d2 : List Nat) (N i : Nat)
    (hagree : d1.take N = d2.take N) (hi : i < N) :
    d1.getD i 0 = d2.getD i 0 := by
  rw [List.getD_eq_getElem?_getD, List.getD_eq_getElem?_getD,
    ← List.getElem?_take_of_lt (l := d1) hi, ← List.getElem?_take_of_lt (l := d2) hi,
    hagree]

/-- C1 (amended): `receive` performs no length validation.  For a buffer
with `0 < unitsize ≤ length` — in particular when the length is *not* a
multiple of the unit size — it returns `SR_OK` (never a data error),
iterates over exactly `length / unitsize` complete samples, and its entire
result depends only on the first `(length / unitsize) * unitsize` buffer
bytes: the trailing partial sample is ignored and no byte beyond the
complete samples is read. -/
theorem C1_length_not_validated (o : Output) (sdi : Device) (ctx : Ctx)
    (L u : Nat) (d1 d2 : List Nat)
    (ho : o.sdi = some sdi) (hint : o.internal = some ctx)
    (hu : 0 < u) (hle : u ≤ L)
    (hidx : ∀ c ∈ ctx.chans, c.index < 8 * u)
    (hagree : d1.take (L / u * u) = d2.take (L / u * u)) :
    (receive (some o) (Packet.SR_DF_LOGIC L u d1)).1 = SR_OK ∧
    numSamples L u = L / u ∧
    receive (some o) (Packet.SR_DF_LOGIC L u d1) =
      receive (some o) (Packet.SR_DF_LOGIC L u d2) := by
  have hns : numSamples L u = L / u := by
    unfold numSamples
    rw [if_neg (by omega), if_pos hle]
    exact (Nat.div_eq_sub_div hu hle).symm
  refine ⟨by simp [receive, ho, hint], hns, ?_⟩
  have hcong : logicLoop u d1 (numSamples L u) { ctx with header := none }
      (headerTake ctx.header) =
      logicLoop u d2 (numSamples L u) { ctx with header := none }
      (headerTake ctx.header) := by
    apply logicLoop_congr
    intro k hk i hi
    rw [hns] at hk
    have hi' : i ∈ ctx.chans.map ChanState.index := hi
    obtain ⟨c, hc, rfl⟩ := List.mem_map.mp hi'
    have hidx8 : c.index < 8 * u := hidx c hc
    have hidx' : c.index / 8 < u := by omega
    rw [getD_drop, getD_drop]
    refine getD_take_agree d1 d2 (L / u * u) _ hagree ?_
    calc k * u + c.index / 8 < k * u + u := by omega
      _ = (k + 1) * u := by ring
      _ ≤ L / u * u := Nat.mul_le_mul_right u hk
  simp [receive, ho, hint, hcong]

/-- C1 (amended) witness: unit size 2, claimed length 5, two buffers
agreeing on the four bytes of the two complete samples but differing in
the trailing byte: `receive` accepts both and produces identical
results. -/
theorem C1_length_not_validated_witness :
    (receive (some out3) (Packet.SR_DF_LOGIC 5 2 [1, 2, 3, 4, 5])).1 = SR_OK ∧
    numSamples 5 2 = 5 / 2 ∧
    receive (some out3) (Packet.SR_DF_LOGIC 5 2 [1, 2, 3, 4, 5]) =
      receive (some out3) (Packet.SR_DF_LOGIC 5 2 [1, 2, 3, 4, 9]) :=
  C1_length_not_validated out3 devD0 ctx3 5 2 [1, 2, 3, 4, 5] [1, 2, 3, 4, 9]
    rfl rfl (by decide) (by decide) (by decide) (by decide)

/-- C9 witness: the amended statement applied at concrete arguments. -/
theorem C9_flush_keeps_accumulator_witness :
    (chanStep 9 9 [1] (mkChan chanD0)).sample_buf = bufAfter [1] (mkChan chanD0) ∧
    (chanStep 8 9 [1] (mkChan chanD0)).sample_buf =
      (if emitsByte 8 then 0 else bufAfter [1] (mkChan chanD0)) ∧
    C9pipeline true false :=
  ⟨C9_flush_keeps_accumulator.1 9 [1] (mkChan chanD0) (by decide),
   C9_flush_keeps_accumulator.2.1 8 9 [1] (mkChan chanD0),
   C9_flush_keeps_accumulator.2.2 true false⟩

/-- C4 witness: the theorem applied to `ctx4` and a one-sample packet. -/
theorem C4_flush_renders_caret_witness :
    (receive (some out4) (Packet.SR_DF_LOGIC 1 1 [1])).2.1 =
      some ((ctx4.chans.map (fun c =>
          lineAfterHex (ctx4.spl_cnt + 1) [1] c ++ [10])).flatten ++
        ([84, 58] ++ List.replicate (1 + 1 / 8) 32 ++ [94, 32] ++ decAscii 1 ++ [10])) ∧
    (theInternal (receive (some out4) (Packet.SR_DF_LOGIC 1 1 [1])).2.2).map
      Ctx.trigger = some (-1) :=
  C4_flush_renders_caret out4 devD0 ctx4 1 [1] 1 rfl rfl rfl (by decide)
    (by decide) rfl rfl

end Hex
